import Mathlib

/-!
Shallow embedding of `safe_follow_symlinks` (files `src/symlinkwalk.py` and
`src/support/pathref.py`) together with an abstract POSIX-style filesystem
model for the OS capabilities the code calls (`os.path.exists`,
`Path.is_symlink`, `Path.is_dir`, `Path.readlink`, `os.scandir`).

Paths are modelled at the level the Python code manipulates them:
`PyPath` is `pathlib.Path`'s `(is_absolute, parts-after-root)` view, and
equality of `PyPath` models equality of the path strings (which is what
`PathRef.__eq__`, hashing and set/dict membership use in the source).
-/

namespace SLW

/-- Model of a `pathlib` path: absolute flag plus the parts after the root.
`Path("/a/b")` has parts `("/", "a", "b")` and is modelled as
`⟨true, ["a", "b"]⟩`; `Path("a/b")` as `⟨false, ["a", "b"]⟩`. -/
structure PyPath where
  abs : Bool
  segs : List String
deriving DecidableEq, Repr

/-- `pathlib.PurePath.name`: the final component (empty for a root). -/
def PyPath.name (p : PyPath) : String := (p.segs.getLast?).getD ""

/-- `pathlib.PurePath.parent` at the parts level (parent of the root is the
root; parent of a single relative component is `.`, whose parts are empty). -/
def PyPath.parent (p : PyPath) : PyPath := ⟨p.abs, p.segs.dropLast⟩

/-- `path / seg` (`PurePath.joinpath` with one component). -/
def PyPath.child (p : PyPath) (s : String) : PyPath := ⟨p.abs, p.segs ++ [s]⟩

/-- One step of `os.path.normpath`'s lexical `..`/`.` collapse. -/
def normStep (abs : Bool) (acc : List String) (s : String) : List String :=
  if s = "." then acc
  else if s = ".." then
    if abs then acc.dropLast
    else match acc.getLast? with
      | none => [".."]
      | some l => if l = ".." then acc ++ [".."] else acc.dropLast
  else acc ++ [s]

/-- `os.path.normpath`: purely lexical collapse of `.` and `..`. -/
def normpath (p : PyPath) : PyPath :=
  ⟨p.abs, p.segs.foldl (normStep p.abs) []⟩

/-- A filesystem object: a regular file, a directory with the names of its
children (in the order `os.scandir` reports them), or a symlink with its
stored target. -/
inductive Node where
  | file : Node
  | dir (children : List String) : Node
  | symlink (target : PyPath) : Node
deriving DecidableEq, Repr

/-- The modelled filesystem plus process state: a finite table from canonical
absolute paths (as segment lists from the root) to nodes, the current working
directory and the home directory (both absolute segment lists). A well-formed
table contains an entry for the root `[]`. -/
structure Env where
  fs : List (List String × Node)
  cwd : List String
  home : List String
deriving Repr

/-- Node stored at a canonical absolute path. -/
def lookupNode (env : Env) (p : List String) : Option Node :=
  (env.fs.find? (fun e => e.1 = p)).map (·.2)

/-- Absolute component list denoted by a `PyPath` (a relative path hangs off
the current working directory, as in every `os.path` call). -/
def toAbs (env : Env) (p : PyPath) : List String :=
  if p.abs then p.segs else env.cwd ++ p.segs

/-- Kernel-style path resolution (`namei`): walk the components, following
symlink nodes. `base` is the canonical, already-resolved prefix. Returns the
canonical resolved path, or `none` if a component is missing, a non-final
component is a regular file, or the step budget is exhausted. The budget is
consumed once per component processed; since every symlink follow consumes at
least one step, a budget of `symloopMax + |components|` models the kernel
giving up with `ELOOP` after `SYMLOOP_MAX`-many follows (`os.path.exists`
then reports `False`), at the price of also refusing pathologically long
(but acyclic) substitution chains that a real kernel would still resolve. -/
def physResolve (env : Env) : Nat → List String → List String → Option (List String)
  | 0, _, _ => none
  | _ + 1, base, [] => some base
  | fuel + 1, base, c :: rest =>
    if c = ".." then physResolve env fuel base.dropLast rest
    else if c = "." then physResolve env fuel base rest
    else
      match lookupNode env (base ++ [c]) with
      | some (.symlink t) =>
        if t.abs then physResolve env fuel [] (t.segs ++ rest)
        else physResolve env fuel base (t.segs ++ rest)
      | some (.dir _) => physResolve env fuel (base ++ [c]) rest
      | some .file => if rest.isEmpty then some (base ++ [c]) else none
      | none => none

/-- The kernel's symlink-follow budget (`SYMLOOP_MAX`-style constant). -/
def symloopMax : Nat := 40

/-- Step budget handed to `physResolve` for a given component list. -/
def resolveFuel (comps : List String) : Nat := comps.length + symloopMax + 1

/-- `os.path.exists`: full physical resolution; `False` for missing paths,
broken symlinks and symlink loops (`ELOOP`). -/
def osExists (env : Env) (p : PyPath) : Bool :=
  (physResolve env (resolveFuel (toAbs env p)) [] (toAbs env p)).isSome

/-- `os.lstat`-style lookup: resolve everything but the final component, then
inspect the final component's node without following it. -/
def lresolveNode (env : Env) (p : PyPath) : Option Node :=
  let comps := toAbs env p
  match comps.getLast? with
  | none => lookupNode env []
  | some c =>
    if c = ".." ∨ c = "." then
      (physResolve env (resolveFuel comps) [] comps).bind (lookupNode env)
    else
      (physResolve env (resolveFuel comps.dropLast) [] comps.dropLast).bind
        (fun base => lookupNode env (base ++ [c]))

/-- `Path.is_symlink` / `os.DirEntry.is_symlink`: final component not
followed. -/
def isSymlinkAt (env : Env) (p : PyPath) : Bool :=
  match lresolveNode env p with
  | some (.symlink _) => true
  | _ => false

/-- `Path.is_dir` / `os.DirEntry.is_dir`: follows symlinks. -/
def isDirAt (env : Env) (p : PyPath) : Bool :=
  match (physResolve env (resolveFuel (toAbs env p)) [] (toAbs env p)).bind (lookupNode env) with
  | some (.dir _) => true
  | _ => false

/-- `Path.readlink`: stored target of the final component (only ever called
by the code right after `is_symlink` returned true; the fallback value is
unreachable there). -/
def readlinkAt (env : Env) (p : PyPath) : PyPath :=
  match lresolveNode env p with
  | some (.symlink t) => t
  | _ => ⟨false, []⟩

/-- `Path.expanduser`: replaces a leading `~` component of a relative path by
the home directory (absolute paths are unchanged). -/
def expanduser (env : Env) (p : PyPath) : PyPath :=
  if p.abs then p
  else match p.segs with
    | "~" :: rest => ⟨true, env.home ++ rest⟩
    | _ => p

/-- The dynamic class of a `support.pathref` object: `PathRef` itself, the
`_InLinkPath` marker subclass from `symlinkwalk.py`, or the outcome
subclasses `MissingPath`, `BrokenLink`, `RecursiveLink`. -/
inductive RKind where
  | plain
  | inlink
  | missing
  | broken
  | recursive
deriving DecidableEq, Repr

/-- A `PathRef` value: its path, whether its `ref` is an `os.DirEntry`
(yielded by `os.scandir`), and its dynamic class. -/
structure PathRef where
  path : PyPath
  entry : Bool
  kind : RKind
deriving DecidableEq, Repr

/-- `PathRef.__eq__`: comparison of the path strings only — the dynamic class
and the `ref` representation are ignored.  `__hash__` is consistent with it,
so Python `set`/`dict` membership for these objects is also string equality. -/
def pathEq (a b : PathRef) : Bool := a.path = b.path

/-- `PathRef.exists`: `MissingPath`/`BrokenLink` override it to `False`;
otherwise a `DirEntry`-backed ref short-circuits to `True` and a plain ref
asks the filesystem (`os.path.exists`). -/
def PathRef.exists (env : Env) (p : PathRef) : Bool :=
  match p.kind with
  | .missing | .broken => false
  | _ => if p.entry then true else osExists env p.path

/-- `PathRef.is_broken_link`: true exactly on the `BrokenLink` subclass. -/
def PathRef.is_broken_link (p : PathRef) : Bool := p.kind = .broken

/-- `PathRef.is_recursive_link`: true exactly on the `RecursiveLink`
subclass. -/
def PathRef.is_recursive_link (p : PathRef) : Bool := p.kind = .recursive

/-- `PathRef.is_bad_link`. -/
def PathRef.is_bad_link (p : PathRef) : Bool :=
  p.is_broken_link || p.is_recursive_link

/-- `PathRef.is_bad_path`. -/
def PathRef.is_bad_path (env : Env) (p : PathRef) : Bool :=
  p.is_recursive_link || !(p.exists env)

/-- `PathRef.name` as the code uses it (`path_or_entry.name`). -/
def PathRef.name (p : PathRef) : String := p.path.name

/-- Plain `PathRef` over an absolute path. -/
def plainAbs (segs : List String) : PathRef := ⟨⟨true, segs⟩, false, .plain⟩

/-- An element of `SymlinkWalk._elem_stack`: a pending path segment, flagged
(`_InLinkElem` subclass) when it originated from a symlink's stored target. -/
structure Elem where
  s : String
  inLink : Bool
deriving DecidableEq, Repr

/-- Which method `SymlinkWalk._yield_fn` currently points at. -/
inductive YFn where
  | path
  | contents
deriving DecidableEq, Repr

/-- The caller-supplied inputs of a `SymlinkWalk` instance. -/
structure Cfg where
  path_filter : PathRef → Bool
  yield_unique : Bool

/-- `SymlinkWalk(...)` defaults, as allocated by `cls()` inside
`resolve_path`: `allow_all_paths` filter and `yield_unique=False`. -/
def defaultCfg : Cfg := ⟨fun _ => true, false⟩

/-- The mutable attributes of a `SymlinkWalk` instance.  Python lists are
kept in source orientation: `append`/`pop` act on the last element.
`path_hits` is the insertion-ordered association list behind the dict;
`bad_paths` and `skipped` are Python sets, modelled as insertion-ordered
lists with membership decided by `pathEq` (string equality, like the
`__eq__`/`__hash__` of `PathRef`). -/
structure St where
  path_hits : List (PathRef × Nat)
  bad_paths : List PathRef
  skipped : List PathRef
  symlinks : List PathRef
  elem_stack : List Elem
  yfn : YFn
deriving DecidableEq, Repr

/-- Freshly constructed `SymlinkWalk` state (`__init__`). -/
def initSt : St := ⟨[], [], [], [], [], .path⟩

/-- `set.add`: no-op when an equal (by path string) element is present. -/
def setAdd (s : List PathRef) (x : PathRef) : List PathRef :=
  if s.any (fun y => pathEq y x) then s else s ++ [x]

/-- Dict read `path_hits[pathRef]` – `none` models the `KeyError` branch. -/
def hitsGet : List (PathRef × Nat) → PathRef → Option Nat
  | [], _ => none
  | e :: t, x => if pathEq e.1 x then some e.2 else hitsGet t x

/-- `path_hits[pathRef] += 1` on an existing key (keeps the stored key). -/
def hitsIncr (h : List (PathRef × Nat)) (x : PathRef) : List (PathRef × Nat) :=
  h.map (fun e => if pathEq e.1 x then (e.1, e.2 + 1) else e)

/-- `self._elem_stack.clear()`. -/
def clearStack (st : St) : St := { st with elem_stack := [] }

/-- Exceptions that can escape the modelled code, plus the model-only
`outOfFuel` marker standing for a computation the given recursion budget did
not finish (it never corresponds to a Python behaviour; a run that returns
it proves nothing about the code). -/
inductive PyErr where
  | indexError
  | stopIteration
  | fileNotFoundError (p : PyPath)
  | brokenLinkError (p : PyPath)
  | recursiveLinkError (p : PyPath)
  | outOfFuel
deriving DecidableEq, Repr

/-- `BrokenLinkError` subclasses `FileNotFoundError`; `RecursiveLinkError`
subclasses `RuntimeError` instead.  This predicate models
`isinstance(e, FileNotFoundError)`. -/
def isFileNotFound : PyErr → Bool
  | .fileNotFoundError _ => true
  | .brokenLinkError _ => true
  | _ => false

/-- Result of draining one generator call: the values it yielded (in order,
all delivered to the consumer before any exception surfaces), the state of
the `SymlinkWalk` instance afterwards, and the exception that escaped, if
any. -/
structure ScanOut where
  yields : List PathRef
  st : St
  err : Option PyErr
deriving DecidableEq, Repr

/-- The `finally` block of `_scan` in the `symlink` case:
`self._symlinks.pop()` — which raises `IndexError` when the stack is empty
(replacing any exception already in flight). -/
def finallyPop (r : ScanOut) : ScanOut :=
  match r.st.symlinks.getLast? with
  | none => ⟨r.yields, r.st, some .indexError⟩
  | some _ => ⟨r.yields, { r.st with symlinks := r.st.symlinks.dropLast }, r.err⟩

/-- `MissingPath(pathRef.path.joinpath(*reversed(self._elem_stack)))`. -/
def mkMissing (p : PathRef) (st : St) : PathRef :=
  ⟨⟨p.path.abs, p.path.segs ++ (st.elem_stack.reverse.map Elem.s)⟩, false, .missing⟩

/-- Line 373–374 of `_scan`: re-normalize the candidate when its final
component is `'..'` (building a fresh plain, string-backed `PathRef`). -/
def normCand (p : PathRef) : PathRef :=
  if p.name = ".." then ⟨normpath p.path, false, .plain⟩ else p

/-- `_yield_path`: the non-recursive yield function. -/
def _yield_path (st : St) (p : PathRef) : ScanOut := ⟨[p], st, none⟩

/-- `os.scandir(pathRef)`: list the directory the path physically resolves
to, yielding `DirEntry`-backed refs whose paths join the **argument's own**
path string with each child name (scandir does not resolve the prefix). -/
def scandirAt (env : Env) (p : PathRef) : List PathRef :=
  match (physResolve env (resolveFuel (toAbs env p.path)) [] (toAbs env p.path)).bind (lookupNode env) with
  | some (.dir names) => names.map (fun n => ⟨p.path.child n, true, .plain⟩)
  | _ => []

mutual

/-- `SymlinkWalk._scan`, lines 344–468 of `symlinkwalk.py`, drained as a
generator.  The explicit `fuel` argument is the model's recursion budget:
every mutual call consumes one unit, and exhaustion is reported as the
model-only `outOfFuel` error. -/
def _scan (env : Env) (cfg : Cfg) : Nat → St → PathRef → ScanOut
  | 0, st, _ => ⟨[], st, some .outOfFuel⟩
  | fuel + 1, st, p₀ =>
    if p₀.exists env = false then
      -- missing path: classify and return before the try block
      if p₀.kind = .inlink then
        match st.symlinks.getLast? with
        | some s =>
          ⟨[], clearStack { st with bad_paths := setAdd st.bad_paths ⟨s.path, s.entry, .broken⟩ }, none⟩
        | none => ⟨[], st, some .indexError⟩   -- `self._symlinks[-1]` on empty list
      else
        ⟨[], clearStack { st with bad_paths := setAdd st.bad_paths (mkMissing p₀ st) }, none⟩
    else
      -- normalization of a trailing '..'
      let p := normCand p₀
      if cfg.path_filter p = false then
        ⟨[], clearStack { st with skipped := setAdd st.skipped p }, none⟩
      else
        if cfg.yield_unique then
          match hitsGet st.path_hits p with
          | some _ =>
            ⟨[], clearStack { st with path_hits := hitsIncr st.path_hits p }, none⟩
          | none =>
            scanSym env cfg fuel { st with path_hits := st.path_hits ++ [(p, 1)] } p
        else
          scanSym env cfg fuel st p

/-- Lines 396–468 of `_scan`: the symlink substitution, the recursion guard
and the `try`/`finally` around the rest of the invocation. -/
def scanSym (env : Env) (cfg : Cfg) : Nat → St → PathRef → ScanOut
  | 0, st, _ => ⟨[], st, some .outOfFuel⟩
  | fuel + 1, st, p =>
    let symlink := isSymlinkAt env p.path
    if symlink then
      if st.symlinks.any (fun s => pathEq s p) then
        -- recursive link: return inside the try block … the finally still pops!
        finallyPop ⟨[], clearStack { st with bad_paths := setAdd st.bad_paths ⟨p.path, p.entry, .recursive⟩ }, none⟩
      else
        let st₂ := { st with symlinks := st.symlinks ++ [p] }
        let link := readlinkAt env p.path
        let stepped : PathRef × St :=
          if link.abs then
            (⟨⟨true, []⟩, false, .plain⟩,
             { st₂ with elem_stack := st₂.elem_stack ++ (link.segs.reverse.map (⟨·, true⟩)) })
          else
            (⟨p.path.parent, false, .plain⟩,
             { st₂ with elem_stack := st₂.elem_stack ++ (link.segs.reverse.map (⟨·, true⟩)) })
        finallyPop (scanBody env cfg fuel stepped.2 stepped.1)
    else
      scanBody env cfg fuel st p

/-- Lines 437–461 of `_scan`: either recurse into the next pending stack
element, or yield the fully built path through `_yield_fn`. -/
def scanBody (env : Env) (cfg : Cfg) : Nat → St → PathRef → ScanOut
  | 0, st, _ => ⟨[], st, some .outOfFuel⟩
  | fuel + 1, st, p =>
    match st.elem_stack.getLast? with
    | some part =>
      let st' := { st with elem_stack := st.elem_stack.dropLast }
      let subP : PathRef :=
        ⟨p.path.child part.s, false, if part.inLink then .inlink else .plain⟩
      _scan env cfg fuel st' subP
    | none =>
      match st.yfn with
      | .path => _yield_path st p
      | .contents => _yield_contents env cfg fuel st p

/-- `SymlinkWalk._yield_contents`: yield the path, then scan every child of
it when it is a directory. -/
def _yield_contents (env : Env) (cfg : Cfg) : Nat → St → PathRef → ScanOut
  | 0, st, _ => ⟨[], st, some .outOfFuel⟩
  | fuel + 1, st, p =>
    if isDirAt env p.path then
      let r := scanEntries env cfg fuel st (scandirAt env p)
      ⟨p :: r.yields, r.st, r.err⟩
    else
      ⟨[p], st, none⟩

/-- The `for entry in sd: yield from self._scan(PathRef(entry))` loops of
`iter_dir` and `_yield_contents`: drive `_scan` over each entry in turn,
stopping (with yields so far) when an exception escapes. -/
def scanEntries (env : Env) (cfg : Cfg) : Nat → St → List PathRef → ScanOut
  | 0, st, _ => ⟨[], st, some .outOfFuel⟩
  | _ + 1, st, [] => ⟨[], st, none⟩
  | fuel + 1, st, e :: es =>
    let r := _scan env cfg fuel st e
    match r.err with
    | some _ => r
    | none =>
      let r₂ := scanEntries env cfg fuel r.st es
      ⟨r.yields ++ r₂.yields, r₂.st, r₂.err⟩

end

/-- The scan performed inside `SymlinkWalk.resolve_path`: optional
`expanduser`, then a **fresh** temporary `SymlinkWalk` (default filter,
`yield_unique=False`) whose element stack is seeded with the path's parts in
reverse, driven from the root (absolute path) or the current working
directory (relative path). -/
def resolveScan (env : Env) (fuel : Nat) (p : PathRef) (expand_user : Bool) : ScanOut :=
  let p1 : PathRef := if expand_user then ⟨expanduser env p.path, false, .plain⟩ else p
  let seeded : St := { initSt with elem_stack := p1.path.segs.reverse.map (⟨·, false⟩) }
  if p1.path.abs then
    _scan env defaultCfg fuel seeded ⟨⟨true, []⟩, false, .plain⟩
  else
    _scan env defaultCfg fuel seeded ⟨⟨true, env.cwd⟩, false, .plain⟩

/-- `SymlinkWalk.resolve_path` (class method).  `next()` on the `_scan`
generator: a yielded value is returned as-is; an exception other than
`StopIteration` propagates; otherwise the single recorded bad path is either
converted to an exception (`strict=True`) or returned as data. -/
def resolve_path (env : Env) (fuel : Nat) (p : PathRef) (expand_user strict : Bool) :
    Except PyErr PathRef :=
  let r := resolveScan env fuel p expand_user
  match r.yields.head? with
  | some q => .ok q
  | none =>
    match r.err with
    | some e => .error e
    | none =>
      match r.st.bad_paths.head? with
      | none => .error .stopIteration   -- `next(iter(set()))` inside the handler
      | some badPath =>
        if strict then
          if badPath.is_recursive_link then .error (.recursiveLinkError badPath.path)
          else if badPath.is_broken_link then .error (.brokenLinkError badPath.path)
          else .error (.fileNotFoundError badPath.path)
        else .ok badPath

/-- The listing part of `iter_dir` (everything after the resolution gate):
note that it tests `is_dir` on — and scans the children of — the `pathRef`
**argument**, not the resolved target. -/
def iter_dir_listing (env : Env) (cfg : Cfg) (fuel : Nat) (st : St) (p : PathRef) : ScanOut :=
  if isDirAt env p.path then
    scanEntries env cfg fuel { st with yfn := .path } (scandirAt env p)
  else
    ⟨[], st, none⟩

/-- `SymlinkWalk.iter_dir`, drained.  With `resolved=False` the path is first
resolved by the class method `resolve_path` (fresh temporary walker);
non-existent targets go to this instance's `bad_paths` and nothing is
yielded. -/
def iter_dir (env : Env) (cfg : Cfg) (fuel : Nat) (st : St) (p : PathRef)
    (resolved expand_user : Bool) : ScanOut :=
  if resolved then
    iter_dir_listing env cfg fuel st p
  else
    match resolve_path env fuel p expand_user false with
    | .error e => ⟨[], st, some e⟩
    | .ok target =>
      if target.exists env = false then
        ⟨[], { st with bad_paths := setAdd st.bad_paths target }, none⟩
      else
        iter_dir_listing env cfg fuel st p

/-- `SymlinkWalk.iter_tree`, drained.  Same resolution gate as `iter_dir`,
but it drives `_yield_contents` on the resolved **target**. -/
def iter_tree (env : Env) (cfg : Cfg) (fuel : Nat) (st : St) (p : PathRef)
    (resolved expand_user : Bool) : ScanOut :=
  if resolved then
    _yield_contents env cfg fuel { st with yfn := .contents } p
  else
    match resolve_path env fuel p expand_user false with
    | .error e => ⟨[], st, some e⟩
    | .ok target =>
      if target.exists env = false then
        ⟨[], { st with bad_paths := setAdd st.bad_paths target }, none⟩
      else
        _yield_contents env cfg fuel { st with yfn := .contents } target

deriving instance DecidableEq for Except

/-! ## Reference definitions for the depth-first-walk claim

`preorderSpec` is the *specification-side* description of the depth-first
pre-order walk ("yields every directory before any of its descendants …
equals the full reachable set admitted by the filter"), stated for
symlink-free filesystems; the walk claim compares `iter_tree`'s output
against it. -/

/-- Is this node a symlink? -/
def isLinkNode : Node → Bool
  | .symlink _ => true
  | _ => false

/-- The children a directory node lists (other nodes list none). -/
def dirNames : Node → List String
  | .dir ns => ns
  | _ => []

/-- A filesystem with no symlink nodes at all: every acyclic directory tree
is of this shape. -/
def noSymlinks (env : Env) : Prop := ∀ e ∈ env.fs, isLinkNode e.2 = false

/-- Is this node a directory? -/
def isDirNode : Node → Bool
  | .dir _ => true
  | _ => false

/-- Well-formed filesystem table: directory listings carry no `..`/`.`/empty
names and no duplicates (as `os.scandir` guarantees), and every non-root
entry hangs off a parent that exists and is a directory. -/
def wfFS (env : Env) : Prop :=
  (∀ e ∈ env.fs, (dirNames e.2).Nodup ∧
    ∀ n ∈ dirNames e.2, n ≠ ".." ∧ n ≠ "." ∧ n ≠ "")
  ∧ ∀ e ∈ env.fs, e.1 ≠ [] →
      isDirNode ((lookupNode env e.1.dropLast).getD .file) = true

/-- Names listed by the directory at canonical path `p` (empty for files,
absent paths, and symlinks). -/
def childNames (env : Env) (p : List String) : List String :=
  match lookupNode env p with
  | some n => dirNames n
  | none => []

/-- Symlink-free path walk: the canonical behaviour `physResolve` has on a
filesystem without symlinks and a component list without `..`/`.` — no fuel
needed. -/
def walk (env : Env) : List String → List String → Option (List String)
  | base, [] => some base
  | base, c :: rest =>
    match lookupNode env (base ++ [c]) with
    | some (.dir _) => walk env (base ++ [c]) rest
    | some .file => if rest.isEmpty then some (base ++ [c]) else none
    | _ => none

/-- Sum of the key lengths: a bound on the depth of any existing path. -/
def fsDepthBound (env : Env) : Nat := (env.fs.map (fun e => e.1.length)).sum

/-- Specification-side depth-first pre-order: the path itself first, then,
for each admitted child in listing order, that child's whole subtree. -/
def preorderSpec (env : Env) (φ : List String → Bool) (p : List String) :
    List (List String) :=
  p :: ((childNames env p).attach.flatMap fun c =>
    if φ (p ++ [c.1]) then preorderSpec env φ (p ++ [c.1]) else [])
termination_by fsDepthBound env + 1 - p.length
decreasing_by
  simp only [List.length_append, List.length_cons, List.length_nil]
  have hc := c.2
  have hlen : p.length ≤ fsDepthBound env := by
    rcases hn : lookupNode env p with _ | n
    · simp [childNames, hn] at hc
    · obtain ⟨e, hfind, -⟩ := Option.map_eq_some'.mp hn
      have hmem := List.mem_of_find?_eq_some hfind
      have hkey : e.1 = p := by
        have := List.find?_some hfind
        simpa using this
      have : e.1.length ∈ env.fs.map (fun e => e.1.length) :=
        List.mem_map_of_mem _ hmem
      calc p.length = e.1.length := by rw [hkey]
        _ ≤ fsDepthBound env := List.le_sum_of_mem this
  omega

/-- The paths reachable from `root` through admitted directory children:
the spec's "full reachable set under the filter". -/
inductive ReachAdm (env : Env) (φ : List String → Bool) (root : List String) :
    List String → Prop
  | refl : ReachAdm env φ root root
  | step {q : List String} {n : String} : ReachAdm env φ root q →
      n ∈ childNames env q → φ (q ++ [n]) = true → ReachAdm env φ root (q ++ [n])

/-! ## Concrete filesystems used in the claim instances -/

/-- `/a` is a symlink to `/b`; `/b` does not exist (a dangling symlink whose
stored target's final component is missing). -/
def envBrokenTarget : Env :=
  ⟨[([], .dir ["a"]), (["a"], .symlink ⟨true, ["b"]⟩)], [], []⟩

/-- `/d` is a directory containing the symlink `/d/s -> /d` (a directory
cycle through a symlink). -/
def envDirLoop : Env :=
  ⟨[([], .dir ["d"]), (["d"], .dir ["s"]), (["d", "s"], .symlink ⟨true, ["d"]⟩)], [], []⟩

/-- Mutually recursive symlinks `/a -> /b` and `/b -> /a`. -/
def envCycle : Env :=
  ⟨[([], .dir ["a", "b"]),
    (["a"], .symlink ⟨true, ["b"]⟩),
    (["b"], .symlink ⟨true, ["a"]⟩)], [], []⟩

/-- An empty root directory. -/
def envRootOnly : Env := ⟨[([], .dir [])], [], []⟩

/-- `/link` is a symlink to the directory `/d`, which contains the file
`/d/f`. -/
def envLinkDir : Env :=
  ⟨[([], .dir ["link", "d"]),
    (["link"], .symlink ⟨true, ["d"]⟩),
    (["d"], .dir ["f"]),
    (["d", "f"], .file)], [], []⟩

/-- `/a` is a symlink to the root `/`. -/
def envRootLink : Env :=
  ⟨[([], .dir ["a"]), (["a"], .symlink ⟨true, []⟩)], [], []⟩

/-- `/x` is a regular file. -/
def envFileX : Env := ⟨[([], .dir ["x"]), (["x"], .file)], [], []⟩

/-- A symlink-free directory tree:
`/t/{a,b}`, `/t/a/c`, with `c` and `b` regular files. -/
def envTree : Env :=
  ⟨[([], .dir ["t"]),
    (["t"], .dir ["a", "b"]),
    (["t", "a"], .dir ["c"]),
    (["t", "a", "c"], .file),
    (["t", "b"], .file)], [], []⟩

/-- A filter that rejects every path. -/
def rejectAll : Cfg := ⟨fun _ => false, false⟩

/-- Accept-all filter with `yield_unique=True`. -/
def uniqueCfg : Cfg := ⟨fun _ => true, true⟩

/-- A filter that rejects exactly `/x`. -/
def rejectX : Cfg := ⟨fun pr => if pr.path = ⟨true, ["x"]⟩ then false else true, false⟩

/-! ## Claim theorems -/

/-- **C1** (code bug).  For the symlink `/a -> /b` with `/b` missing — the
claim's exact premise, established by the `isSymlinkAt`/`readlinkAt`/
`osExists` conjuncts — `resolve_path` returns a `MissingPath` for `/a`, not
a `BrokenLink`: `is_broken_link()` is `false` on the result, and in strict
mode a plain `FileNotFoundError` is raised instead of `BrokenLinkError`.
The existence pre-check at the top of `_scan` (which follows the whole
symlink chain, like `os.path.exists`) fires before the symlink machinery
that would classify the event as a broken link, contradicting the
`resolve_path` docstring ("In the case of a bad link, the path will be to
the symlink itself"; strict "BrokenLinkError: symlinked path does not
exist"). -/
theorem c1_broken_link_misclassified :
    isSymlinkAt envBrokenTarget ⟨true, ["a"]⟩ = true
    ∧ readlinkAt envBrokenTarget ⟨true, ["a"]⟩ = ⟨true, ["b"]⟩
    ∧ osExists envBrokenTarget ⟨true, ["b"]⟩ = false
    ∧ resolve_path envBrokenTarget 50 (plainAbs ["a"]) true false
        = .ok ⟨⟨true, ["a"]⟩, false, .missing⟩
    ∧ PathRef.is_broken_link ⟨⟨true, ["a"]⟩, false, .missing⟩ = false
    ∧ resolve_path envBrokenTarget 50 (plainAbs ["a"]) true true
        = .error (.fileNotFoundError ⟨true, ["a"]⟩) := by
  decide

/-- **C2** (code bug).  In the directory cycle `/d/s -> /d`, the `_scan`
invocation that *detects* the recursive link returns through the
`finally` block with `symlink = True` although it never pushed onto
`_symlinks`; it therefore pops the entry pushed by its ancestor, and when
the ancestor's own `finally` runs, `self._symlinks.pop()` is executed on an
empty list: `iter_tree` escapes with an `IndexError` after having recorded
the `RecursiveLink`.  This contradicts the pop-iff-pushed discipline the
claim states (and the comment above the `finally` block). -/
theorem c2_guard_overpop :
    (iter_tree envDirLoop defaultCfg 60 initSt (plainAbs ["d"]) false true).err
      = some .indexError
    ∧ (iter_tree envDirLoop defaultCfg 60 initSt (plainAbs ["d"]) false true).st.bad_paths
      = [⟨⟨true, ["d", "s"]⟩, true, .recursive⟩]
    ∧ (iter_tree envDirLoop defaultCfg 60 initSt (plainAbs ["d"]) false true).st.symlinks
      = [] := by
  decide

/-- **C3** (code bug).  For the mutually recursive symlinks `/a -> /b` and
`/b -> /a`, `resolve_path(/a)` does terminate, but it produces a
`MissingPath`, not the claimed `RecursiveLink`: `os.path.exists("/a")`
already fails with `ELOOP` at the existence pre-check, so the `_symlinks`
recursion guard is never consulted.  In strict mode this raises
`FileNotFoundError` instead of the `RecursiveLinkError` promised by the
`resolve_path` docstring. -/
theorem c3_cycle_reported_missing :
    isSymlinkAt envCycle ⟨true, ["a"]⟩ = true
    ∧ readlinkAt envCycle ⟨true, ["a"]⟩ = ⟨true, ["b"]⟩
    ∧ isSymlinkAt envCycle ⟨true, ["b"]⟩ = true
    ∧ readlinkAt envCycle ⟨true, ["b"]⟩ = ⟨true, ["a"]⟩
    ∧ resolve_path envCycle 200 (plainAbs ["a"]) true false
        = .ok ⟨⟨true, ["a"]⟩, false, .missing⟩
    ∧ PathRef.is_recursive_link ⟨⟨true, ["a"]⟩, false, .missing⟩ = false
    ∧ resolve_path envCycle 200 (plainAbs ["a"]) true true
        = .error (.fileNotFoundError ⟨true, ["a"]⟩) := by
  decide

/-- **C4** (counterexample).  A candidate `/x` that does not exist and that
the filter would reject: `_scan` records it as `MissingPath` in `bad_paths`,
leaves `skipped` empty, and never consults the filter — the existence check
runs *first*, contrary to the claimed normalize → filter → uniqueness →
symlink → existence order. -/
theorem c4_counterexample :
    (_scan envRootOnly rejectAll 30 initSt (plainAbs ["x"])).st.skipped = []
    ∧ (_scan envRootOnly rejectAll 30 initSt (plainAbs ["x"])).st.bad_paths
        = [⟨⟨true, ["x"]⟩, false, .missing⟩]
    ∧ (_scan envRootOnly rejectAll 30 initSt (plainAbs ["x"])).yields = [] := by
  decide

/-- **C6** (counterexample).  With the symlink `/a -> /` and the input path
`/a/a`, `_scan` re-encounters `/a` while it is on the `_symlinks` guard; the
over-popping `finally` then underflows the guard and `resolve_path` escapes
with an `IndexError` — in *both* modes.  So with `strict=False` an error can
be raised instead of the bad path being returned as data (and with
`strict=True` the escaping error is not one of the three documented
conversions). -/
theorem c6_counterexample :
    resolve_path envRootLink 60 (plainAbs ["a", "a"]) true false = .error .indexError
    ∧ resolve_path envRootLink 60 (plainAbs ["a", "a"]) true true = .error .indexError := by
  decide

/-- **C5** (code bug).  `/link` is a symlink to the directory `/d` holding
the file `/d/f`.  `iter_dir(/link)` resolves the argument to `/d` (the
`target` variable) but then lists the children of the **original** argument:
it yields the entry `/link/f`, not the resolved target's child `/d/f` (which
`scandir` on the resolved target would produce).  `iter_tree` on the same
input, by contrast, does walk the resolved target.  The computed-but-unused
resolved target shows the slip. -/
theorem c5_iter_dir_scans_original :
    resolve_path envLinkDir 60 (plainAbs ["link"]) true false
      = .ok ⟨⟨true, ["d"]⟩, false, .inlink⟩
    ∧ (iter_dir envLinkDir defaultCfg 60 initSt (plainAbs ["link"]) false true).yields
      = [⟨⟨true, ["link", "f"]⟩, true, .plain⟩]
    ∧ scandirAt envLinkDir ⟨⟨true, ["d"]⟩, false, .inlink⟩
      = [⟨⟨true, ["d", "f"]⟩, true, .plain⟩]
    ∧ (iter_tree envLinkDir defaultCfg 60 initSt (plainAbs ["link"]) false true).yields
      = [⟨⟨true, ["d"]⟩, false, .inlink⟩, ⟨⟨true, ["d", "f"]⟩, true, .plain⟩] := by
  decide

/-! ## Helper lemmas -/

theorem hitsGet_incr {h : List (PathRef × Nat)} {p : PathRef} {n : Nat}
    (hg : hitsGet h p = some n) : hitsGet (hitsIncr h p) p = some (n + 1) := by
  induction h with
  | nil => simp [hitsGet] at hg
  | cons e t ih =>
    cases hp : pathEq e.1 p
    · simp [hitsGet, hitsIncr, hp] at hg ⊢
      exact ih hg
    · simp [hitsGet, hitsIncr, hp] at hg ⊢
      omega

theorem hitsGet_append_absent {h : List (PathRef × Nat)} {p : PathRef} {n : Nat}
    (hg : hitsGet h p = none) : hitsGet (h ++ [(p, n)]) p = some n := by
  induction h with
  | nil => simp [hitsGet, pathEq]
  | cons e t ih =>
    cases hp : pathEq e.1 p
    · simp [hitsGet, hp] at hg ⊢
      exact ih hg
    · simp [hitsGet, hp] at hg

theorem finallyPop_path_hits (r : ScanOut) :
    (finallyPop r).st.path_hits = r.st.path_hits := by
  unfold finallyPop
  cases r.st.symlinks.getLast? <;> rfl

/-- With `yield_unique=False`, no function of the scan family ever touches
`path_hits`. -/
theorem path_hits_const (env : Env) (cfg : Cfg) (hU : cfg.yield_unique = false) :
    ∀ fuel : Nat,
      (∀ st p, (_scan env cfg fuel st p).st.path_hits = st.path_hits)
      ∧ (∀ st p, (scanSym env cfg fuel st p).st.path_hits = st.path_hits)
      ∧ (∀ st p, (scanBody env cfg fuel st p).st.path_hits = st.path_hits)
      ∧ (∀ st p, (_yield_contents env cfg fuel st p).st.path_hits = st.path_hits)
      ∧ (∀ st es, (scanEntries env cfg fuel st es).st.path_hits = st.path_hits) := by
  intro fuel
  induction fuel with
  | zero =>
    refine ⟨?_, ?_, ?_, ?_, ?_⟩ <;> intros <;> rfl
  | succ f ih =>
    obtain ⟨ihS, ihY, ihB, ihC, ihE⟩ := ih
    refine ⟨?_, ?_, ?_, ?_, ?_⟩
    · intro st p
      by_cases hex : p.exists env = false
      · by_cases hin : p.kind = .inlink
        · cases hl : st.symlinks.getLast? <;> simp [_scan, hex, hin, hl, clearStack]
        · simp [_scan, hex, hin, clearStack]
      · by_cases hf : cfg.path_filter (normCand p) = false
        · simp [_scan, hex, hf, clearStack]
        · simp only [_scan, hex, if_false, hf, hU]
          simp only [Bool.false_eq_true, if_false]
          exact ihY _ _
    · intro st p
      by_cases hs : isSymlinkAt env p.path
      · by_cases hm : st.symlinks.any (fun s => pathEq s p)
        · simp [scanSym, hs, hm, finallyPop_path_hits, clearStack]
        · simp only [scanSym, hs, if_true, hm]
          simp only [Bool.false_eq_true, if_false, if_true]
          by_cases habs : (readlinkAt env p.path).abs <;>
            simp [habs, finallyPop_path_hits, ihB]
      · simp only [scanSym, hs]
        simp only [Bool.false_eq_true, if_false]
        exact ihB _ _
    · intro st p
      rcases hl : st.elem_stack.getLast? with _ | part
      · cases hy : st.yfn <;> simp [scanBody, hl, hy, _yield_path, ihC]
      · simp [scanBody, hl, ihS]
    · intro st p
      by_cases hd : isDirAt env p.path <;> simp [_yield_contents, hd, ihE]
    · intro st es
      cases es with
      | nil => rfl
      | cons e t =>
        simp only [scanEntries]
        rcases herr : (_scan env cfg f st e).err with _ | err
        · simp [herr, ihE, ihS]
        · simp [herr, ihS]

/-- **C4, amended** (the claim's order is wrong; this is what the code
does).  `_scan` checks existence *first*.  (i) An **existing** candidate
that the filter rejects is recorded in `skipped` (after `..`-normalization)
and its branch ends with no output, the element stack discarded and
`bad_paths`/`path_hits` untouched.  (ii) A **non-existent** candidate never
reaches the filter: the result does not depend on the filter at all,
`skipped` is unchanged and nothing is yielded (the candidate goes to
`bad_paths` as `MissingPath`/`BrokenLink` instead). -/
theorem c4_exists_checked_before_filter
    (env : Env) (cfg : Cfg) (g : PathRef → Bool) (st : St) (p : PathRef) (fuel : Nat) :
    (p.exists env = true → cfg.path_filter (normCand p) = false →
      _scan env cfg (fuel + 1) st p
        = ⟨[], clearStack { st with skipped := setAdd st.skipped (normCand p) }, none⟩)
    ∧ (p.exists env = false →
      (_scan env cfg (fuel + 1) st p).st.skipped = st.skipped
      ∧ _scan env { cfg with path_filter := g } (fuel + 1) st p
          = _scan env cfg (fuel + 1) st p
      ∧ (_scan env cfg (fuel + 1) st p).yields = []) := by
  constructor
  · intro hex hf
    simp [_scan, hex, hf]
  · intro hex
    by_cases hin : p.kind = .inlink
    · cases hl : st.symlinks.getLast? with
      | none => refine ⟨?_, ?_, ?_⟩ <;> simp [_scan, hex, hin, hl]
      | some s => refine ⟨?_, ?_, ?_⟩ <;> simp [_scan, hex, hin, hl, clearStack]
    · refine ⟨?_, ?_, ?_⟩ <;> simp [_scan, hex, hin, clearStack]

/-- Closed witness for `c4_exists_checked_before_filter`: `/x` exists in
`envFileX` and `rejectX` rejects it, so it lands in `skipped`; the same
candidate in `envRootOnly` does not exist, so `skipped` stays empty and the
filter is irrelevant. -/
theorem c4_exists_checked_before_filter_witness :
    (_scan envFileX rejectX 30 initSt (plainAbs ["x"])
      = ⟨[], clearStack { initSt with
          skipped := setAdd initSt.skipped (normCand (plainAbs ["x"])) }, none⟩)
    ∧ ((_scan envRootOnly rejectX 30 initSt (plainAbs ["x"])).st.skipped = initSt.skipped
      ∧ _scan envRootOnly { rejectX with path_filter := fun _ => true } 30 initSt (plainAbs ["x"])
          = _scan envRootOnly rejectX 30 initSt (plainAbs ["x"])
      ∧ (_scan envRootOnly rejectX 30 initSt (plainAbs ["x"])).yields = []) :=
  ⟨(c4_exists_checked_before_filter envFileX rejectX (fun _ => true) initSt (plainAbs ["x"]) 29).1
      (by decide) (by decide),
   (c4_exists_checked_before_filter envRootOnly rejectX (fun _ => true) initSt (plainAbs ["x"]) 29).2
      (by decide)⟩

/-- **C6, amended**.  When the resolution scan completes without an internal
exception and yields nothing, the recorded bad path is handled exactly as
the claim says: with `strict=True` it is converted by kind —
`RecursiveLink` to `RecursiveLinkError`, `BrokenLink` to `BrokenLinkError`
(which is a `FileNotFoundError`, unlike `RecursiveLinkError`), anything else
to `FileNotFoundError`, each carrying the offending path — and with
`strict=False` it is returned as data.  (The completion hypothesis is
necessary: by `c6_counterexample` the scan itself can escape with an
`IndexError`, which propagates even with `strict=False`.) -/
theorem c6_strict_error_conversion
    (env : Env) (fuel : Nat) (p : PathRef) (ex : Bool) (b : PathRef)
    (hy : (resolveScan env fuel p ex).yields = [])
    (he : (resolveScan env fuel p ex).err = none)
    (hb : (resolveScan env fuel p ex).st.bad_paths.head? = some b) :
    resolve_path env fuel p ex false = .ok b
    ∧ (b.kind = .recursive →
        resolve_path env fuel p ex true = .error (.recursiveLinkError b.path))
    ∧ (b.kind = .broken →
        resolve_path env fuel p ex true = .error (.brokenLinkError b.path))
    ∧ (b.kind = .missing →
        resolve_path env fuel p ex true = .error (.fileNotFoundError b.path))
    ∧ isFileNotFound (.brokenLinkError b.path) = true
    ∧ isFileNotFound (.recursiveLinkError b.path) = false := by
  have hhead : (resolveScan env fuel p ex).yields.head? = none := by
    simp [hy]
  refine ⟨?_, ?_, ?_, ?_, rfl, rfl⟩
  · simp [resolve_path, hhead, he, hb]
  · intro hk
    simp [resolve_path, hhead, he, hb, PathRef.is_recursive_link, hk]
  · intro hk
    simp [resolve_path, hhead, he, hb, PathRef.is_recursive_link,
      PathRef.is_broken_link, hk]
  · intro hk
    simp [resolve_path, hhead, he, hb, PathRef.is_recursive_link,
      PathRef.is_broken_link, hk]

/-- Closed witness for `c6_strict_error_conversion` at the missing path
`/nope` in the empty root. -/
theorem c6_strict_error_conversion_witness :
    resolve_path envRootOnly 30 (plainAbs ["nope"]) true false
      = .ok ⟨⟨true, ["nope"]⟩, false, .missing⟩
    ∧ ((⟨⟨true, ["nope"]⟩, false, .missing⟩ : PathRef).kind = .recursive →
        resolve_path envRootOnly 30 (plainAbs ["nope"]) true true
          = .error (.recursiveLinkError ⟨true, ["nope"]⟩))
    ∧ ((⟨⟨true, ["nope"]⟩, false, .missing⟩ : PathRef).kind = .broken →
        resolve_path envRootOnly 30 (plainAbs ["nope"]) true true
          = .error (.brokenLinkError ⟨true, ["nope"]⟩))
    ∧ ((⟨⟨true, ["nope"]⟩, false, .missing⟩ : PathRef).kind = .missing →
        resolve_path envRootOnly 30 (plainAbs ["nope"]) true true
          = .error (.fileNotFoundError ⟨true, ["nope"]⟩))
    ∧ isFileNotFound (.brokenLinkError ⟨true, ["nope"]⟩) = true
    ∧ isFileNotFound (.recursiveLinkError ⟨true, ["nope"]⟩) = false :=
  c6_strict_error_conversion envRootOnly 30 (plainAbs ["nope"]) true
    ⟨⟨true, ["nope"]⟩, false, .missing⟩ (by decide) (by decide) (by decide)

/-- **C7**.  For a candidate that reaches the uniqueness step (it exists,
needs no `..`-normalization, and passes the filter): with `yield_unique`
enabled, a first encounter records the candidate with hit count 1 and
resolution continues (with the symlink/recursion stage, lines 396–468);
any later encounter of an equal candidate increments its hit count, discards
the pending element stack, and ends the branch with no output and no
re-expansion.  With `yield_unique` disabled, no call of `_scan` — however
deep — ever modifies `path_hits`. -/
theorem c7_yield_unique_bookkeeping (env : Env) (cfg : Cfg) :
    (cfg.yield_unique = true →
      ∀ (st : St) (p : PathRef) (fuel n : Nat),
        p.exists env = true → p.name ≠ ".." → cfg.path_filter p = true →
        ((hitsGet st.path_hits p = some n →
            _scan env cfg (fuel + 1) st p
              = ⟨[], clearStack { st with path_hits := hitsIncr st.path_hits p }, none⟩
            ∧ hitsGet (hitsIncr st.path_hits p) p = some (n + 1))
          ∧ (hitsGet st.path_hits p = none →
            _scan env cfg (fuel + 1) st p
              = scanSym env cfg fuel { st with path_hits := st.path_hits ++ [(p, 1)] } p
            ∧ hitsGet (st.path_hits ++ [(p, 1)]) p = some 1)))
    ∧ (cfg.yield_unique = false →
      ∀ (fuel : Nat) (st : St) (p : PathRef),
        (_scan env cfg fuel st p).st.path_hits = st.path_hits) := by
  constructor
  · intro hU st p fuel n hex hname hf
    have hnc : normCand p = p := by simp [normCand, hname]
    constructor
    · intro hg
      refine ⟨?_, hitsGet_incr hg⟩
      simp [_scan, hex, hnc, hf, hU, hg]
    · intro hg
      refine ⟨?_, hitsGet_append_absent hg⟩
      simp [_scan, hex, hnc, hf, hU, hg]
  · intro hU fuel st p
    exact (path_hits_const env cfg hU fuel).1 st p

/-- Closed witness for `c7_yield_unique_bookkeeping`: `/x` exists in
`envFileX`; a repeat encounter (hit count already 1) increments to 2 and
stops the branch, a first encounter records count 1 and continues with
`scanSym`; and with `yield_unique=False` (`defaultCfg`) `path_hits` is
untouched. -/
theorem c7_yield_unique_bookkeeping_witness :
    (_scan envFileX uniqueCfg 30 { initSt with path_hits := [(plainAbs ["x"], 1)] }
        (plainAbs ["x"])
      = ⟨[], clearStack { { initSt with path_hits := [(plainAbs ["x"], 1)] } with
          path_hits := hitsIncr [(plainAbs ["x"], 1)] (plainAbs ["x"]) }, none⟩
    ∧ hitsGet (hitsIncr [(plainAbs ["x"], 1)] (plainAbs ["x"])) (plainAbs ["x"]) = some 2)
    ∧ (_scan envFileX uniqueCfg 30 initSt (plainAbs ["x"])
      = scanSym envFileX uniqueCfg 29 { initSt with path_hits := [(plainAbs ["x"], 1)] }
          (plainAbs ["x"])
    ∧ hitsGet ([] ++ [(plainAbs ["x"], 1)]) (plainAbs ["x"]) = some 1)
    ∧ (_scan envFileX defaultCfg 30 initSt (plainAbs ["x"])).st.path_hits
        = initSt.path_hits :=
  ⟨((c7_yield_unique_bookkeeping envFileX uniqueCfg).1 rfl
        { initSt with path_hits := [(plainAbs ["x"], 1)] } (plainAbs ["x"]) 29 1
        (by decide) (by decide) (by decide)).1 (by decide),
   ((c7_yield_unique_bookkeeping envFileX uniqueCfg).1 rfl
        initSt (plainAbs ["x"]) 29 0
        (by decide) (by decide) (by decide)).2 (by decide),
   (c7_yield_unique_bookkeeping envFileX defaultCfg).2 rfl 30 initSt (plainAbs ["x"])⟩

/-- **C9**.  The failure subclasses answer their classification queries from
their dynamic class alone, for every filesystem: `MissingPath` and
`BrokenLink` always fail `exists()`; `BrokenLink` is a broken link;
`RecursiveLink` is a recursive link; all three are bad paths; and a plain
`PathRef` whose path exists is not a bad path. -/
theorem c9_outcome_classification (env : Env) (p : PathRef) :
    (p.kind = .missing → p.exists env = false)
    ∧ (p.kind = .broken → p.exists env = false)
    ∧ (p.kind = .broken → p.is_broken_link = true)
    ∧ (p.kind = .recursive → p.is_recursive_link = true)
    ∧ (p.kind = .missing ∨ p.kind = .broken ∨ p.kind = .recursive →
        p.is_bad_path env = true)
    ∧ (p.kind = .plain → p.exists env = true → p.is_bad_path env = false) := by
  refine ⟨?_, ?_, ?_, ?_, ?_, ?_⟩
  · intro hk; simp [PathRef.exists, hk]
  · intro hk; simp [PathRef.exists, hk]
  · intro hk; simp [PathRef.is_broken_link, hk]
  · intro hk; simp [PathRef.is_recursive_link, hk]
  · rintro (hk | hk | hk) <;>
      simp [PathRef.is_bad_path, PathRef.is_recursive_link, PathRef.exists, hk]
  · intro hk hex
    simp [PathRef.is_bad_path, PathRef.is_recursive_link, hk, hex]

/-- Closed witness for `c9_outcome_classification` at a `BrokenLink` value
over the root-only filesystem. -/
theorem c9_outcome_classification_witness :
    ((⟨⟨true, ["a"]⟩, false, .broken⟩ : PathRef).kind = .broken →
      PathRef.exists envRootOnly ⟨⟨true, ["a"]⟩, false, .broken⟩ = false)
    ∧ ((⟨⟨true, ["a"]⟩, false, .broken⟩ : PathRef).kind = .broken →
      PathRef.is_broken_link ⟨⟨true, ["a"]⟩, false, .broken⟩ = true) :=
  ⟨(c9_outcome_classification envRootOnly ⟨⟨true, ["a"]⟩, false, .broken⟩).2.1,
   (c9_outcome_classification envRootOnly ⟨⟨true, ["a"]⟩, false, .broken⟩).2.2.1⟩

/-- **C10**.  When a non-pre-resolved argument resolves (without raising) to
a target that fails `exists()`, both `iter_dir` and `iter_tree` record that
resolved outcome in this instance's `bad_paths` and yield nothing; `skipped`
and `path_hits` are untouched by the call (the resolution itself ran on a
fresh temporary walker, since `resolve_path` is a class method). -/
theorem c10_unresolvable_target_recorded
    (env : Env) (cfg : Cfg) (fuel : Nat) (st : St) (p : PathRef) (ex : Bool) (t : PathRef)
    (hr : resolve_path env fuel p ex false = .ok t)
    (he : t.exists env = false) :
    iter_dir env cfg fuel st p false ex
      = ⟨[], { st with bad_paths := setAdd st.bad_paths t }, none⟩
    ∧ iter_tree env cfg fuel st p false ex
      = ⟨[], { st with bad_paths := setAdd st.bad_paths t }, none⟩
    ∧ ({ st with bad_paths := setAdd st.bad_paths t }).skipped = st.skipped
    ∧ ({ st with bad_paths := setAdd st.bad_paths t }).path_hits = st.path_hits := by
  refine ⟨?_, ?_, rfl, rfl⟩ <;> simp [iter_dir, iter_tree, hr, he]

/-- Closed witness for `c10_unresolvable_target_recorded` at the missing
path `/nope` in the empty root. -/
theorem c10_unresolvable_target_recorded_witness :
    iter_dir envRootOnly defaultCfg 30 initSt (plainAbs ["nope"]) false true
      = ⟨[], { initSt with
          bad_paths := setAdd initSt.bad_paths ⟨⟨true, ["nope"]⟩, false, .missing⟩ }, none⟩
    ∧ iter_tree envRootOnly defaultCfg 30 initSt (plainAbs ["nope"]) false true
      = ⟨[], { initSt with
          bad_paths := setAdd initSt.bad_paths ⟨⟨true, ["nope"]⟩, false, .missing⟩ }, none⟩ := by
  have h := c10_unresolvable_target_recorded envRootOnly defaultCfg 30 initSt
    (plainAbs ["nope"]) true ⟨⟨true, ["nope"]⟩, false, .missing⟩ (by decide) (by decide)
  exact ⟨h.1, h.2.1⟩

/-! ## Symlink-free filesystems: `physResolve` reduces to `walk` -/

theorem lookupNode_mem {env : Env} {p : List String} {n : Node}
    (h : lookupNode env p = some n) : ∃ e ∈ env.fs, e.1 = p ∧ e.2 = n := by
  obtain ⟨e, hfind, h2⟩ := Option.map_eq_some'.mp h
  refine ⟨e, List.mem_of_find?_eq_some hfind, ?_, h2⟩
  simpa using List.find?_some hfind

theorem noSym_lookup {env : Env} (hns : noSymlinks env) {p : List String} {n : Node}
    (h : lookupNode env p = some n) : isLinkNode n = false := by
  obtain ⟨e, he, -, h2⟩ := lookupNode_mem h
  exact h2 ▸ hns e he

theorem walk_out {env : Env} {rest : List String} :
    ∀ {base out : List String}, walk env base rest = some out → out = base ++ rest := by
  induction rest with
  | nil => intro base out h; simp [walk] at h; simp [h]
  | cons c rest ih =>
    intro base out h
    simp only [walk] at h
    rcases hl : lookupNode env (base ++ [c]) with _ | n <;> rw [hl] at h
    · exact absurd h (by simp)
    · match n with
      | .dir ns => simpa using ih h
      | .file =>
        rcases hre : rest.isEmpty with _ | _ <;> rw [hre] at h
        · exact absurd h (by simp)
        · obtain rfl := List.isEmpty_iff.mp hre
          simpa using h.symm
      | .symlink t => exact absurd h (by simp)

theorem walk_take {env : Env} {xs : List String} :
    ∀ {ys base out : List String}, walk env base (xs ++ ys) = some out →
      walk env base xs = some (base ++ xs) := by
  induction xs with
  | nil => intro ys base out _; simp [walk]
  | cons c rest ih =>
    intro ys base out h
    simp only [List.cons_append, walk, List.append_eq] at h ⊢
    rcases hl : lookupNode env (base ++ [c]) with _ | n <;> rw [hl] at h
    · exact absurd h (by simp)
    · match n with
      | .dir ns => simpa using ih h
      | .file =>
        rcases hre : (rest ++ ys).isEmpty with _ | _ <;> simp only [hre] at h
        · exact absurd h (by simp)
        · obtain ⟨rfl, rfl⟩ := List.append_eq_nil.mp (List.isEmpty_iff.mp hre)
          simp
      | .symlink t => exact absurd h (by simp)

theorem physResolve_eq_walk {env : Env} (hns : noSymlinks env) :
    ∀ {rest : List String} {base : List String} {fuel : Nat},
      (∀ s ∈ rest, s ≠ ".." ∧ s ≠ ".") → rest.length < fuel →
      physResolve env fuel base rest = walk env base rest := by
  intro rest
  induction rest with
  | nil =>
    intro base fuel _ hlen
    match fuel, hlen with
    | f + 1, _ => simp [physResolve, walk]
  | cons c rest ih =>
    intro base fuel hdots hlen
    match fuel, hlen with
    | f + 1, hlen =>
      have hc := hdots c (by simp)
      simp only [physResolve, walk, if_neg hc.1, if_neg hc.2]
      rcases hl : lookupNode env (base ++ [c]) with _ | n
      · rfl
      · match n with
        | .dir ns =>
          exact ih (fun s hs => hdots s (by simp [hs]))
            (by simpa using Nat.lt_of_succ_lt_succ hlen)
        | .file => rfl
        | .symlink t => exact absurd (noSym_lookup hns hl) (by simp [isLinkNode])

theorem walk_concat {env : Env} (hwf : wfFS env) {p : List String} :
    ∀ {base q : List String} {n : String}, walk env base p = some q →
      walk env base (p ++ [n]) =
        (match lookupNode env (q ++ [n]) with
          | some (.dir _) => some (q ++ [n])
          | some .file => some (q ++ [n])
          | _ => none) := by
  induction p with
  | nil =>
    intro base q n h
    obtain rfl : base = q := by simpa [walk] using h
    simp only [List.nil_append, walk]
    rcases hl : lookupNode env (base ++ [n]) with _ | nd
    · rfl
    · match nd with
      | .dir ns => simp [walk]
      | .file => simp
      | .symlink t => rfl
  | cons c rest ih =>
    intro base q n h
    simp only [walk, List.cons_append] at h ⊢
    rcases hl : lookupNode env (base ++ [c]) with _ | nd <;> rw [hl] at h
    · exact absurd h (by simp)
    · match nd with
      | .dir ns => exact ih h
      | .file =>
        rcases hre : rest.isEmpty with _ | _ <;> simp only [hre] at h
        · exact absurd h (by simp)
        · obtain rfl := List.isEmpty_iff.mp hre
          have hqe : base ++ [c] = q := by simpa using h
          have hnone : lookupNode env (q ++ [n]) = none := by
            rcases hq : lookupNode env (q ++ [n]) with _ | nd2
            · rfl
            · obtain ⟨e, he, hkey, -⟩ := lookupNode_mem hq
              have hne : e.1 ≠ [] := by simp [hkey]
              have hdir := hwf.2 e he hne
              rw [hkey, List.dropLast_concat, ← hqe, hl] at hdir
              simp [isDirNode] at hdir
          simp [hl, hnone]
      | .symlink t => exact absurd h (by simp)

theorem mem_of_getLast? {l : List String} {c : String} (h : l.getLast? = some c) :
    c ∈ l := by
  have hd := List.dropLast_append_getLast? c h
  rw [← hd]
  simp

theorem isSymlinkAt_of_walk {env : Env} (hns : noSymlinks env) {q : List String}
    (hdots : ∀ s ∈ q, s ≠ ".." ∧ s ≠ ".") (hw : walk env [] q = some q) :
    isSymlinkAt env ⟨true, q⟩ = false := by
  have htoabs : toAbs env ⟨true, q⟩ = q := by simp [toAbs]
  unfold isSymlinkAt lresolveNode
  rw [htoabs]
  rcases hq : q.getLast? with _ | c
  · simp only [hq]
    obtain rfl := List.getLast?_eq_none_iff.mp hq
    rcases hl : lookupNode env ([] : List String) with _ | n
    · simp [hl]
    · match n with
      | .dir ns => simp [hl]
      | .file => simp [hl]
      | .symlink t => exact absurd (noSym_lookup hns hl) (by simp [isLinkNode])
  · have hcm := mem_of_getLast? hq
    have hcd := hdots c hcm
    have hsplit := List.dropLast_append_getLast? c hq
    have hwd : walk env [] q.dropLast = some q.dropLast := by
      have hconc : walk env [] (q.dropLast ++ [c]) = some q := by rw [hsplit]; exact hw
      simpa using walk_take hconc
    have hres : physResolve env (resolveFuel q.dropLast) [] q.dropLast
        = some q.dropLast := by
      rw [physResolve_eq_walk hns
        (fun s hs => hdots s (List.dropLast_subset q hs))
        (by simp [resolveFuel]; omega)]
      exact hwd
    simp only [hq, if_neg (by simp [hcd.1, hcd.2] : ¬(c = ".." ∨ c = "."))]
    rw [hres]
    rcases hl : lookupNode env (q.dropLast ++ [c]) with _ | n
    · simp [hl]
    · match n with
      | .dir ns => simp [hl]
      | .file => simp [hl]
      | .symlink t => exact absurd (noSym_lookup hns hl) (by simp [isLinkNode])

theorem osExists_walk {env : Env} (hns : noSymlinks env) {q : List String}
    (hdots : ∀ s ∈ q, s ≠ ".." ∧ s ≠ ".") :
    osExists env ⟨true, q⟩ = (walk env [] q).isSome := by
  unfold osExists
  rw [physResolve_eq_walk hns (by simpa [toAbs] using hdots)
    (by simp [toAbs, resolveFuel]; omega)]
  simp [toAbs]

theorem isDirAt_walk {env : Env} (hns : noSymlinks env) {q : List String}
    (hdots : ∀ s ∈ q, s ≠ ".." ∧ s ≠ ".") :
    isDirAt env ⟨true, q⟩ =
      (match (walk env [] q).bind (lookupNode env) with
        | some (.dir _) => true
        | _ => false) := by
  unfold isDirAt
  rw [physResolve_eq_walk hns (by simpa [toAbs] using hdots)
    (by simp [toAbs, resolveFuel]; omega)]
  simp [toAbs]

theorem scandirAt_walk {env : Env} (hns : noSymlinks env) {q : List String}
    {ns : List String} {b : Bool} {k : RKind}
    (hdots : ∀ s ∈ q, s ≠ ".." ∧ s ≠ ".")
    (hw : walk env [] q = some q) (hd : lookupNode env q = some (.dir ns)) :
    scandirAt env ⟨⟨true, q⟩, b, k⟩
      = ns.map (fun n => ⟨⟨true, q ++ [n]⟩, true, .plain⟩) := by
  unfold scandirAt
  rw [physResolve_eq_walk hns (by simpa [toAbs] using hdots)
    (by simp [toAbs, resolveFuel]; omega)]
  simp [toAbs, hw, hd, PyPath.child]

theorem wf_childNames {env : Env} (hwf : wfFS env) {q : List String} :
    (childNames env q).Nodup ∧
      ∀ n ∈ childNames env q, n ≠ ".." ∧ n ≠ "." ∧ n ≠ "" := by
  unfold childNames
  rcases hl : lookupNode env q with _ | nd
  · simp
  · obtain ⟨e, he, -, h2⟩ := lookupNode_mem hl
    exact h2 ▸ hwf.1 e he

/-! ## Properties of the specification pre-order -/

theorem preorderSpec_head (env : Env) (φ : List String → Bool) (p : List String) :
    (preorderSpec env φ p).head? = some p := by
  rw [preorderSpec]
  rfl

theorem mem_preorderSpec_self (env : Env) (φ : List String → Bool) (p : List String) :
    p ∈ preorderSpec env φ p := by
  rw [preorderSpec]
  exact List.mem_cons_self _ _

theorem preorderSpec_prefix {env : Env} {φ : List String → Bool} {p q : List String}
    (hq : q ∈ preorderSpec env φ p) : p <+: q := by
  induction p using preorderSpec.induct env φ generalizing q with
  | _ x ih =>
    rw [preorderSpec] at hq
    rcases List.mem_cons.mp hq with rfl | hq2
    · exact List.prefix_refl _
    · obtain ⟨c, -, hbc⟩ := List.mem_flatMap.mp hq2
      by_cases hφ : φ (x ++ [c.1]) = true
      · rw [if_pos hφ] at hbc
        exact (List.prefix_append x [c.1]).trans (ih c hbc)
      · rw [if_neg hφ] at hbc
        exact absurd hbc (by simp)

theorem preorderSpec_pairwise {env : Env} {φ : List String → Bool}
    (hwf : wfFS env) (p : List String) :
    (preorderSpec env φ p).Pairwise (fun a b => b <+: a → a = b) := by
  induction p using preorderSpec.induct env φ with
  | _ x ih =>
    rw [preorderSpec]
    refine List.Pairwise.cons ?_ ?_
    · intro b hb hba
      obtain ⟨c, -, hbc⟩ := List.mem_flatMap.mp hb
      by_cases hφ : φ (x ++ [c.1]) = true
      · rw [if_pos hφ] at hbc
        have hpre := preorderSpec_prefix hbc
        have h1 := hpre.length_le
        have h2 := hba.length_le
        simp at h1
        omega
      · rw [if_neg hφ] at hbc
        exact absurd hbc (by simp)
    · rw [List.pairwise_flatMap]
      constructor
      · intro c _
        by_cases hφ : φ (x ++ [c.1]) = true
        · rw [if_pos hφ]; exact ih c
        · rw [if_neg hφ]; exact List.Pairwise.nil
      · have hnodup := (wf_childNames hwf (q := x)).1
        have h1 : ((childNames env x).attach.map Subtype.val).Pairwise (· ≠ ·) := by
          rw [List.attach_map_subtype_val]; exact hnodup
        have hpair := List.pairwise_map.mp h1
        refine hpair.imp ?_
        intro c₁ c₂ hne a ha b hb hba
        by_cases hφ₁ : φ (x ++ [c₁.1]) = true
        · by_cases hφ₂ : φ (x ++ [c₂.1]) = true
          · rw [if_pos hφ₁] at ha
            rw [if_pos hφ₂] at hb
            have hpa : x ++ [c₁.1] <+: a := preorderSpec_prefix ha
            have hpb : x ++ [c₂.1] <+: b := preorderSpec_prefix hb
            have hpb' : x ++ [c₂.1] <+: a := hpb.trans hba
            have hcc : x ++ [c₁.1] = x ++ [c₂.1] :=
              (List.prefix_of_prefix_length_le hpa hpb' (by simp)).eq_of_length (by simp)
            exact absurd (by simpa using List.append_cancel_left hcc) hne
          · rw [if_neg hφ₂] at hb
            exact absurd hb (by simp)
        · rw [if_neg hφ₁] at ha
          exact absurd ha (by simp)

theorem ReachAdm_trans {env : Env} {φ : List String → Bool} {a b c : List String}
    (h1 : ReachAdm env φ a b) (h2 : ReachAdm env φ b c) : ReachAdm env φ a c := by
  induction h2 with
  | refl => exact h1
  | step _ hn hφ ih => exact .step ih hn hφ

theorem mem_preorderSpec_step {env : Env} {φ : List String → Bool}
    {p q : List String} {n : String}
    (hq : q ∈ preorderSpec env φ p) (hn : n ∈ childNames env q)
    (hφ : φ (q ++ [n]) = true) : (q ++ [n]) ∈ preorderSpec env φ p := by
  induction p using preorderSpec.induct env φ generalizing q with
  | _ x ih =>
    rw [preorderSpec] at hq ⊢
    rcases List.mem_cons.mp hq with rfl | hq2
    · refine List.mem_cons.mpr (.inr (List.mem_flatMap.mpr ⟨⟨n, hn⟩, List.mem_attach _ _, ?_⟩))
      rw [if_pos hφ]
      exact mem_preorderSpec_self env φ _
    · obtain ⟨c, hc, hbc⟩ := List.mem_flatMap.mp hq2
      by_cases hφc : φ (x ++ [c.1]) = true
      · rw [if_pos hφc] at hbc
        refine List.mem_cons.mpr (.inr (List.mem_flatMap.mpr ⟨c, hc, ?_⟩))
        rw [if_pos hφc]
        exact ih c hbc hn hφ
      · rw [if_neg hφc] at hbc
        exact absurd hbc (by simp)

theorem preorderSpec_mem_iff {env : Env} {φ : List String → Bool}
    {p q : List String} :
    q ∈ preorderSpec env φ p ↔ ReachAdm env φ p q := by
  constructor
  · intro hq
    induction p using preorderSpec.induct env φ generalizing q with
    | _ x ih =>
      rw [preorderSpec] at hq
      rcases List.mem_cons.mp hq with rfl | hq2
      · exact .refl
      · obtain ⟨c, -, hbc⟩ := List.mem_flatMap.mp hq2
        by_cases hφ : φ (x ++ [c.1]) = true
        · rw [if_pos hφ] at hbc
          exact ReachAdm_trans (.step .refl c.2 hφ) (ih c hbc)
        · rw [if_neg hφ] at hbc
          exact absurd hbc (by simp)
  · intro h
    induction h with
    | refl => exact mem_preorderSpec_self env φ p
    | step _ hn hφ ih => exact mem_preorderSpec_step ih hn hφ

/-! ## Correspondence: the scan family against `preorderSpec` -/

theorem attach_flatMap_eq {α β : Type _} (l : List α) (g : α → List β) :
    (l.attach.flatMap fun c => g c.1) = l.flatMap g := by
  conv_rhs => rw [← List.attach_map_subtype_val l]
  rw [List.flatMap_map]

theorem preorderSpec_children (env : Env) (φ : List String → Bool) (p : List String) :
    preorderSpec env φ p
      = p :: (childNames env p).flatMap
          (fun n => if φ (p ++ [n]) then preorderSpec env φ (p ++ [n]) else []) := by
  rw [preorderSpec]
  congr 1
  exact attach_flatMap_eq (childNames env p)
    (fun n => if φ (p ++ [n]) then preorderSpec env φ (p ++ [n]) else [])

theorem isSymlinkAt_child {env : Env} (hns : noSymlinks env) {q : List String}
    {n : String} (hdots : ∀ s ∈ q, s ≠ ".." ∧ s ≠ ".")
    (hw : walk env [] q = some q) (h1 : n ≠ "..") (h2 : n ≠ ".") :
    isSymlinkAt env ⟨true, q ++ [n]⟩ = false := by
  have htoabs : toAbs env ⟨true, q ++ [n]⟩ = q ++ [n] := by simp [toAbs]
  unfold isSymlinkAt lresolveNode
  rw [htoabs]
  have hres : physResolve env (resolveFuel (q ++ [n]).dropLast) [] (q ++ [n]).dropLast
      = some q := by
    rw [List.dropLast_concat,
      physResolve_eq_walk hns hdots (by simp [resolveFuel]; omega)]
    exact hw
  simp only [List.getLast?_concat,
    if_neg (by simp [h1, h2] : ¬(n = ".." ∨ n = "."))]
  rw [hres]
  rcases hl : lookupNode env (q ++ [n]) with _ | nd
  · simp [List.dropLast_concat, hl]
  · match nd with
    | .dir ns => simp [List.dropLast_concat, hl]
    | .file => simp [List.dropLast_concat, hl]
    | .symlink t => exact absurd (noSym_lookup hns hl) (by simp [isLinkNode])

/-- On a symlink-free, well-formed filesystem, with uniqueness off and a
path-determined filter, the whole scan family computes exactly the
specification pre-order (whenever it completes within fuel), touching
nothing in the walker state but `skipped`. -/
theorem treeScan_spec (env : Env) (cfg : Cfg) (φ : List String → Bool)
    (hns : noSymlinks env) (hwf : wfFS env) (hU : cfg.yield_unique = false)
    (hφ : ∀ pr : PathRef, cfg.path_filter pr = φ pr.path.segs) :
    ∀ fuel : Nat,
      (∀ (st : St) (q : List String) (n : String),
        st.elem_stack = [] → st.yfn = .contents →
        (∀ s ∈ q, s ≠ ".." ∧ s ≠ ".") → walk env [] q = some q →
        n ≠ ".." → n ≠ "." →
        (_scan env cfg fuel st ⟨⟨true, q ++ [n]⟩, true, .plain⟩).err = none →
        (_scan env cfg fuel st ⟨⟨true, q ++ [n]⟩, true, .plain⟩).yields.map
            (fun y => y.path.segs)
          = (if φ (q ++ [n]) then preorderSpec env φ (q ++ [n]) else [])
        ∧ ∃ sk, (_scan env cfg fuel st ⟨⟨true, q ++ [n]⟩, true, .plain⟩).st
            = { st with skipped := sk })
      ∧ (∀ (st : St) (q : List String) (n : String),
        st.elem_stack = [] → st.yfn = .contents →
        (∀ s ∈ q, s ≠ ".." ∧ s ≠ ".") → walk env [] q = some q →
        n ≠ ".." → n ≠ "." →
        (scanSym env cfg fuel st ⟨⟨true, q ++ [n]⟩, true, .plain⟩).err = none →
        (scanSym env cfg fuel st ⟨⟨true, q ++ [n]⟩, true, .plain⟩).yields.map
            (fun y => y.path.segs)
          = preorderSpec env φ (q ++ [n])
        ∧ ∃ sk, (scanSym env cfg fuel st ⟨⟨true, q ++ [n]⟩, true, .plain⟩).st
            = { st with skipped := sk })
      ∧ (∀ (st : St) (pr : PathRef) (q : List String),
        pr.path = ⟨true, q⟩ →
        st.elem_stack = [] → st.yfn = .contents →
        (∀ s ∈ q, s ≠ ".." ∧ s ≠ ".") →
        (∀ ns, lookupNode env q = some (.dir ns) → walk env [] q = some q) →
        (scanBody env cfg fuel st pr).err = none →
        (scanBody env cfg fuel st pr).yields.map (fun y => y.path.segs)
          = preorderSpec env φ q
        ∧ ∃ sk, (scanBody env cfg fuel st pr).st = { st with skipped := sk })
      ∧ (∀ (st : St) (pr : PathRef) (q : List String),
        pr.path = ⟨true, q⟩ →
        st.elem_stack = [] → st.yfn = .contents →
        (∀ s ∈ q, s ≠ ".." ∧ s ≠ ".") →
        (∀ ns, lookupNode env q = some (.dir ns) → walk env [] q = some q) →
        (_yield_contents env cfg fuel st pr).err = none →
        (_yield_contents env cfg fuel st pr).yields.map (fun y => y.path.segs)
          = preorderSpec env φ q
        ∧ ∃ sk, (_yield_contents env cfg fuel st pr).st = { st with skipped := sk })
      ∧ (∀ (st : St) (q : List String) (names : List String),
        st.elem_stack = [] → st.yfn = .contents →
        (∀ s ∈ q, s ≠ ".." ∧ s ≠ ".") → walk env [] q = some q →
        (∀ n ∈ names, n ∈ childNames env q) →
        (scanEntries env cfg fuel st
            (names.map fun n => ⟨⟨true, q ++ [n]⟩, true, .plain⟩)).err = none →
        (scanEntries env cfg fuel st
            (names.map fun n => ⟨⟨true, q ++ [n]⟩, true, .plain⟩)).yields.map
            (fun y => y.path.segs)
          = names.flatMap
              (fun n => if φ (q ++ [n]) then preorderSpec env φ (q ++ [n]) else [])
        ∧ ∃ sk, (scanEntries env cfg fuel st
            (names.map fun n => ⟨⟨true, q ++ [n]⟩, true, .plain⟩)).st
            = { st with skipped := sk }) := by
  intro fuel
  induction fuel with
  | zero =>
    refine ⟨?_, ?_, ?_, ?_, ?_⟩
    · intro st q n _ _ _ _ _ _ herr
      simp [_scan] at herr
    · intro st q n _ _ _ _ _ _ herr
      simp [scanSym] at herr
    · intro st pr q _ _ _ _ _ herr
      simp [scanBody] at herr
    · intro st pr q _ _ _ _ _ herr
      simp [_yield_contents] at herr
    · intro st q names _ _ _ _ _ herr
      simp [scanEntries] at herr
  | succ f ih =>
    obtain ⟨ihScan, ihSym, ihBody, ihCont, ihEnt⟩ := ih
    have hStEq : ∀ (st : St) (x : List PathRef), st.elem_stack = [] →
        clearStack { st with skipped := x } = { st with skipped := x } := by
      intro st x h
      simp only [clearStack]
      rw [← h]
    refine ⟨?_, ?_, ?_, ?_, ?_⟩
    · -- `_scan` on a directory child entry
      intro st q n hst hy hdots hw hn1 hn2 herr
      have hex : PathRef.exists env ⟨⟨true, q ++ [n]⟩, true, .plain⟩ = true := by
        simp [PathRef.exists]
      have hnc : normCand ⟨⟨true, q ++ [n]⟩, true, .plain⟩
          = ⟨⟨true, q ++ [n]⟩, true, .plain⟩ := by
        simp [normCand, PathRef.name, PyPath.name, List.getLast?_concat, hn1]
      rcases hφc : φ (q ++ [n]) with _ | _
      · have hf : cfg.path_filter ⟨⟨true, q ++ [n]⟩, true, .plain⟩ = false := by
          rw [hφ]; exact hφc
        have hrw : _scan env cfg (f + 1) st ⟨⟨true, q ++ [n]⟩, true, .plain⟩
            = ⟨[], clearStack { st with
                skipped := setAdd st.skipped ⟨⟨true, q ++ [n]⟩, true, .plain⟩ }, none⟩ := by
          simp [_scan, hex, hnc, hf]
        rw [hrw]
        exact ⟨by simp [hφc], ⟨_, hStEq st _ hst⟩⟩
      · have hf : cfg.path_filter ⟨⟨true, q ++ [n]⟩, true, .plain⟩ = true := by
          rw [hφ]; exact hφc
        have hrw : _scan env cfg (f + 1) st ⟨⟨true, q ++ [n]⟩, true, .plain⟩
            = scanSym env cfg f st ⟨⟨true, q ++ [n]⟩, true, .plain⟩ := by
          simp [_scan, hex, hnc, hf, hU]
        rw [hrw] at herr ⊢
        obtain ⟨hyld, hsk⟩ := ihSym st q n hst hy hdots hw hn1 hn2 herr
        exact ⟨by simp [hφc, hyld], hsk⟩
    · -- `scanSym` on a directory child entry: never a symlink here
      intro st q n hst hy hdots hw hn1 hn2 herr
      have hsym : isSymlinkAt env ⟨true, q ++ [n]⟩ = false :=
        isSymlinkAt_child hns hdots hw hn1 hn2
      have hrw : scanSym env cfg (f + 1) st ⟨⟨true, q ++ [n]⟩, true, .plain⟩
          = scanBody env cfg f st ⟨⟨true, q ++ [n]⟩, true, .plain⟩ := by
        simp [scanSym, hsym]
      rw [hrw] at herr ⊢
      refine ihBody st _ (q ++ [n]) rfl hst hy ?_ ?_ herr
      · intro s hs
        rcases List.mem_append.mp hs with hs | hs
        · exact hdots s hs
        · simp only [List.mem_singleton] at hs
          exact hs ▸ ⟨hn1, hn2⟩
      · intro ns hl
        have hwc := walk_concat (n := n) hwf hw
        rw [hl] at hwc
        exact hwc
    · -- `scanBody` with an empty element stack in contents mode
      intro st pr q hpr hst hy hdots hD herr
      have hrw : scanBody env cfg (f + 1) st pr = _yield_contents env cfg f st pr := by
        simp [scanBody, hst, hy]
      rw [hrw] at herr ⊢
      exact ihCont st pr q hpr hst hy hdots hD herr
    · -- `_yield_contents`
      intro st pr q hpr hst hy hdots hD herr
      rcases hwq : walk env [] q with _ | q'
      · -- path does not physically resolve: leaf yield
        have hdir : isDirAt env pr.path = false := by
          simp [hpr, isDirAt_walk hns hdots, hwq]
        have hcn : childNames env q = [] := by
          rcases hl : lookupNode env q with _ | nd
          · simp [childNames, hl]
          · match nd with
            | .dir ns =>
              have hc := hD ns hl
              rw [hwq] at hc
              exact absurd hc (by simp)
            | .file => simp [childNames, hl, dirNames]
            | .symlink t => exact absurd (noSym_lookup hns hl) (by simp [isLinkNode])
        have hrw : _yield_contents env cfg (f + 1) st pr = ⟨[pr], st, none⟩ := by
          simp [_yield_contents, hdir]
        rw [hrw]
        constructor
        · rw [preorderSpec, hcn]
          simp [hpr]
        · exact ⟨st.skipped, rfl⟩
      · obtain rfl : q = q' := by simpa using (walk_out hwq).symm
        rcases hl : lookupNode env q with _ | nd
        · -- resolves but has no table entry (bare root): leaf yield
          have hdir : isDirAt env pr.path = false := by
            simp [hpr, isDirAt_walk hns hdots, hwq, hl]
          have hcn : childNames env q = [] := by simp [childNames, hl]
          have hrw : _yield_contents env cfg (f + 1) st pr = ⟨[pr], st, none⟩ := by
            simp [_yield_contents, hdir]
          rw [hrw]
          constructor
          · rw [preorderSpec, hcn]
            simp [hpr]
          · exact ⟨st.skipped, rfl⟩
        · match nd with
          | .file =>
            have hdir : isDirAt env pr.path = false := by
              simp [hpr, isDirAt_walk hns hdots, hwq, hl]
            have hcn : childNames env q = [] := by simp [childNames, hl, dirNames]
            have hrw : _yield_contents env cfg (f + 1) st pr = ⟨[pr], st, none⟩ := by
              simp [_yield_contents, hdir]
            rw [hrw]
            constructor
            · rw [preorderSpec, hcn]
              simp [hpr]
            · exact ⟨st.skipped, rfl⟩
          | .symlink t => exact absurd (noSym_lookup hns hl) (by simp [isLinkNode])
          | .dir ns =>
            have hdir : isDirAt env pr.path = true := by
              simp [hpr, isDirAt_walk hns hdots, hwq, hl]
            have hscd : scandirAt env pr
                = ns.map (fun n => ⟨⟨true, q ++ [n]⟩, true, .plain⟩) := by
              cases pr with
              | mk path entry kind =>
                cases hpr
                exact scandirAt_walk hns hdots hwq hl
            have hcn : childNames env q = ns := by simp [childNames, hl, dirNames]
            have hrw : _yield_contents env cfg (f + 1) st pr
                = ⟨pr :: (scanEntries env cfg f st
                      (ns.map fun n => ⟨⟨true, q ++ [n]⟩, true, .plain⟩)).yields,
                   (scanEntries env cfg f st
                      (ns.map fun n => ⟨⟨true, q ++ [n]⟩, true, .plain⟩)).st,
                   (scanEntries env cfg f st
                      (ns.map fun n => ⟨⟨true, q ++ [n]⟩, true, .plain⟩)).err⟩ := by
              simp [_yield_contents, hdir, hscd]
            rw [hrw] at herr ⊢
            have herr2 : (scanEntries env cfg f st
                (ns.map fun n => ⟨⟨true, q ++ [n]⟩, true, .plain⟩)).err = none := herr
            obtain ⟨hyld, hsk⟩ := ihEnt st q ns hst hy hdots hwq
              (fun n hn => by rw [hcn]; exact hn) herr2
            constructor
            · rw [preorderSpec_children, hcn]
              simp only [List.map_cons]
              rw [hyld]
              simp [hpr]
            · exact hsk
    · -- `scanEntries` over the listed children
      intro st q names hst hy hdots hw hnames herr
      cases names with
      | nil =>
        refine ⟨by simp [scanEntries], ⟨st.skipped, ?_⟩⟩
        simp [scanEntries]
      | cons n names' =>
        have hngood := (wf_childNames hwf (q := q)).2 n (hnames n (by simp))
        simp only [List.map_cons, scanEntries] at herr ⊢
        rcases herr1 : (_scan env cfg f st ⟨⟨true, q ++ [n]⟩, true, .plain⟩).err with _ | e
        · simp only [herr1] at herr ⊢
          obtain ⟨hyld1, sk1, hsk1⟩ :=
            ihScan st q n hst hy hdots hw hngood.1 hngood.2.1 herr1
          have hstE : (_scan env cfg f st ⟨⟨true, q ++ [n]⟩, true, .plain⟩).st.elem_stack
              = [] := by rw [hsk1]; exact hst
          have hstY : (_scan env cfg f st ⟨⟨true, q ++ [n]⟩, true, .plain⟩).st.yfn
              = .contents := by rw [hsk1]; exact hy
          obtain ⟨hyld2, sk2, hsk2⟩ := ihEnt
            (_scan env cfg f st ⟨⟨true, q ++ [n]⟩, true, .plain⟩).st q names'
            hstE hstY hdots hw (fun m hm => hnames m (by simp [hm])) herr
          refine ⟨?_, ⟨sk2, ?_⟩⟩
          · simp only [List.map_append, hyld1, hyld2, List.flatMap_cons]
          · rw [hsk2, hsk1]
        · rw [herr1] at herr
          simp [herr1] at herr

/-- On a symlink-free filesystem, the seeded `_scan` used by `resolve_path`
walks the pending segments one by one and yields exactly the assembled
path, leaving the walker state untouched apart from the drained element
stack. -/
theorem resolve_walks (env : Env) (hns : noSymlinks env) (hwf : wfFS env) :
    ∀ (segs : List String) (fuel : Nat) (st : St) (base : List String),
      st.elem_stack = segs.reverse.map (fun s => ⟨s, false⟩) →
      st.yfn = .path →
      (∀ s ∈ base ++ segs, s ≠ ".." ∧ s ≠ ".") →
      walk env [] base = some base →
      walk env base segs = some (base ++ segs) →
      3 * segs.length + 3 ≤ fuel →
      _scan env defaultCfg fuel st ⟨⟨true, base⟩, false, .plain⟩
        = ⟨[⟨⟨true, base ++ segs⟩, false, .plain⟩], { st with elem_stack := [] }, none⟩ := by
  intro segs
  induction segs with
  | nil =>
    intro fuel st base hst hy hdots hb hw hf
    match fuel, hf with
    | g + 1 + 1 + 1, _ =>
      have hdb : ∀ s ∈ base, s ≠ ".." ∧ s ≠ "." := by
        intro s hs; exact hdots s (by simp [hs])
      have hex : PathRef.exists env ⟨⟨true, base⟩, false, .plain⟩ = true := by
        simp [PathRef.exists, osExists_walk hns hdb, hb]
      have hname : PathRef.name ⟨⟨true, base⟩, false, .plain⟩ ≠ ".." := by
        simp only [PathRef.name, PyPath.name]
        rcases hgl : base.getLast? with _ | c
        · simp
        · simpa using (hdb c (mem_of_getLast? hgl)).1
      have hnc : normCand ⟨⟨true, base⟩, false, .plain⟩
          = ⟨⟨true, base⟩, false, .plain⟩ := by
        simp [normCand, hname]
      have hsym : isSymlinkAt env ⟨true, base⟩ = false :=
        isSymlinkAt_of_walk hns hdb hb
      have h1 : _scan env defaultCfg (g + 1 + 1 + 1) st ⟨⟨true, base⟩, false, .plain⟩
          = scanSym env defaultCfg (g + 1 + 1) st ⟨⟨true, base⟩, false, .plain⟩ := by
        simp [_scan, hex, hnc, defaultCfg]
      have h2 : scanSym env defaultCfg (g + 1 + 1) st ⟨⟨true, base⟩, false, .plain⟩
          = scanBody env defaultCfg (g + 1) st ⟨⟨true, base⟩, false, .plain⟩ := by
        simp [scanSym, hsym]
      have hse : st.elem_stack = [] := by simpa using hst
      have h3 : scanBody env defaultCfg (g + 1) st ⟨⟨true, base⟩, false, .plain⟩
          = ⟨[⟨⟨true, base⟩, false, .plain⟩], st, none⟩ := by
        simp [scanBody, hse, hy, _yield_path]
      have hsteq : ({ st with elem_stack := [] } : St) = st := by rw [← hse]
      rw [h1, h2, h3, hsteq]
      simp
  | cons c rest ih =>
    intro fuel st base hst hy hdots hb hw hf
    match fuel, hf with
    | g + 1 + 1 + 1, hf =>
      have hdb : ∀ s ∈ base, s ≠ ".." ∧ s ≠ "." := by
        intro s hs; exact hdots s (by simp [hs])
      have hex : PathRef.exists env ⟨⟨true, base⟩, false, .plain⟩ = true := by
        simp [PathRef.exists, osExists_walk hns hdb, hb]
      have hname : PathRef.name ⟨⟨true, base⟩, false, .plain⟩ ≠ ".." := by
        simp only [PathRef.name, PyPath.name]
        rcases hgl : base.getLast? with _ | c'
        · simp
        · simpa using (hdb c' (mem_of_getLast? hgl)).1
      have hnc : normCand ⟨⟨true, base⟩, false, .plain⟩
          = ⟨⟨true, base⟩, false, .plain⟩ := by
        simp [normCand, hname]
      have hsym : isSymlinkAt env ⟨true, base⟩ = false :=
        isSymlinkAt_of_walk hns hdb hb
      have h1 : _scan env defaultCfg (g + 1 + 1 + 1) st ⟨⟨true, base⟩, false, .plain⟩
          = scanSym env defaultCfg (g + 1 + 1) st ⟨⟨true, base⟩, false, .plain⟩ := by
        simp [_scan, hex, hnc, defaultCfg]
      have h2 : scanSym env defaultCfg (g + 1 + 1) st ⟨⟨true, base⟩, false, .plain⟩
          = scanBody env defaultCfg (g + 1) st ⟨⟨true, base⟩, false, .plain⟩ := by
        simp [scanSym, hsym]
      have hstc : st.elem_stack
          = (rest.reverse.map (fun s => (⟨s, false⟩ : Elem))) ++ [⟨c, false⟩] := by
        simpa using hst
      have h3 : scanBody env defaultCfg (g + 1) st ⟨⟨true, base⟩, false, .plain⟩
          = _scan env defaultCfg g
              { st with elem_stack := rest.reverse.map (fun s => ⟨s, false⟩) }
              ⟨⟨true, base ++ [c]⟩, false, .plain⟩ := by
        simp [scanBody, hstc, List.getLast?_concat, List.dropLast_concat, PyPath.child]
      -- analyze the first step of the remaining walk
      have hw1 := hw
      simp only [walk] at hw1
      have hsplit :
          walk env [] (base ++ [c]) = some (base ++ [c])
          ∧ walk env (base ++ [c]) rest = some ((base ++ [c]) ++ rest) := by
        rcases hl : lookupNode env (base ++ [c]) with _ | nd <;> rw [hl] at hw1
        · exact absurd hw1 (by simp)
        · match nd with
          | .dir ns =>
            constructor
            · have hwc := walk_concat (n := c) hwf hb
              rw [hl] at hwc
              exact hwc
            · simpa using hw1
          | .file =>
            rcases hre : rest.isEmpty with _ | _ <;> rw [hre] at hw1
            · exact absurd hw1 (by simp)
            · obtain rfl := List.isEmpty_iff.mp hre
              constructor
              · have hwc := walk_concat (n := c) hwf hb
                rw [hl] at hwc
                exact hwc
              · simp [walk]
          | .symlink t => exact absurd hw1 (by simp)
      have hrec := ih g { st with elem_stack := rest.reverse.map (fun s => ⟨s, false⟩) }
        (base ++ [c]) rfl hy
        (by intro s hs; apply hdots s; simpa using hs)
        hsplit.1 hsplit.2 (by simp at hf ⊢; omega)
      rw [h1, h2, h3, hrec]
      simp

/-- **C8**.  On any acyclic directory tree (symlink-free, well-formed
filesystem), with duplicate suppression off and a path-determined filter,
a completing `iter_tree` call yields exactly the specification pre-order of
the resolved target: the target itself first, every directory before any of
its descendants (no later element is a strict ancestor of an earlier one),
and the set of yielded paths is exactly the set reachable from the target
through filter-admitted children. -/
theorem c8_iter_tree_preorder
    (env : Env) (cfg : Cfg) (φ : List String → Bool) (fuel : Nat) (st : St)
    (p : List String)
    (hns : noSymlinks env) (hwf : wfFS env) (hU : cfg.yield_unique = false)
    (hφ : ∀ pr : PathRef, cfg.path_filter pr = φ pr.path.segs)
    (hst : st.elem_stack = [])
    (hdots : ∀ s ∈ p, s ≠ ".." ∧ s ≠ ".")
    (hw : walk env [] p = some p)
    (hfuel : 3 * p.length + 3 ≤ fuel)
    (herr : (iter_tree env cfg fuel st (plainAbs p) false true).err = none) :
    (iter_tree env cfg fuel st (plainAbs p) false true).yields.map
        (fun y => y.path.segs) = preorderSpec env φ p
    ∧ ((iter_tree env cfg fuel st (plainAbs p) false true).yields.map
        (fun y => y.path.segs)).head? = some p
    ∧ ((iter_tree env cfg fuel st (plainAbs p) false true).yields.map
        (fun y => y.path.segs)).Pairwise (fun a b => b <+: a → a = b)
    ∧ ∀ q, q ∈ (iter_tree env cfg fuel st (plainAbs p) false true).yields.map
        (fun y => y.path.segs) ↔ ReachAdm env φ p q := by
  have hseed := resolve_walks env hns hwf p fuel
    { initSt with elem_stack := p.reverse.map (fun s => ⟨s, false⟩) } []
    rfl rfl (by simpa using hdots) (by simp [walk]) (by simpa using hw) hfuel
  have hrs : resolveScan env fuel (plainAbs p) true
      = ⟨[⟨⟨true, p⟩, false, .plain⟩],
         { ({ initSt with elem_stack := p.reverse.map (fun s => ⟨s, false⟩) } : St)
            with elem_stack := [] }, none⟩ := by
    simp only [resolveScan, plainAbs, expanduser, if_pos rfl]
    simpa using hseed
  have hrp : resolve_path env fuel (plainAbs p) true false
      = .ok ⟨⟨true, p⟩, false, .plain⟩ := by
    simp [resolve_path, hrs]
  have hex : PathRef.exists env ⟨⟨true, p⟩, false, .plain⟩ = true := by
    simp [PathRef.exists, osExists_walk hns hdots, hw]
  have hit : iter_tree env cfg fuel st (plainAbs p) false true
      = _yield_contents env cfg fuel { st with yfn := .contents }
          ⟨⟨true, p⟩, false, .plain⟩ := by
    simp only [iter_tree]
    rw [hrp]
    simp [hex]
  rw [hit] at herr ⊢
  obtain ⟨hyld, -⟩ :=
    ((((treeScan_spec env cfg φ hns hwf hU hφ fuel).2).2).2).1
      { st with yfn := .contents } ⟨⟨true, p⟩, false, .plain⟩ p rfl hst rfl hdots
      (fun _ _ => hw) herr
  refine ⟨hyld, ?_, ?_, ?_⟩
  · rw [hyld]
    exact preorderSpec_head env φ p
  · rw [hyld]
    exact preorderSpec_pairwise hwf p
  · intro q
    rw [hyld]
    exact preorderSpec_mem_iff

/-- Closed witness for `c8_iter_tree_preorder` on the concrete tree
`envTree`, rooted at `/t`. -/
theorem c8_iter_tree_preorder_witness :
    ((iter_tree envTree defaultCfg 60 initSt (plainAbs ["t"]) false true).yields.map
        (fun y => y.path.segs) = preorderSpec envTree (fun _ => true) ["t"]
    ∧ ((iter_tree envTree defaultCfg 60 initSt (plainAbs ["t"]) false true).yields.map
        (fun y => y.path.segs)).head? = some ["t"]
    ∧ ((iter_tree envTree defaultCfg 60 initSt (plainAbs ["t"]) false true).yields.map
        (fun y => y.path.segs)).Pairwise (fun a b => b <+: a → a = b))
    ∧ (["t", "a", "c"] ∈ (iter_tree envTree defaultCfg 60 initSt (plainAbs ["t"])
          false true).yields.map (fun y => y.path.segs)
        ↔ ReachAdm envTree (fun _ => true) ["t"] ["t", "a", "c"]) := by
  have h := c8_iter_tree_preorder envTree defaultCfg (fun _ => true) 60 initSt ["t"]
    (by unfold noSymlinks; decide) (by unfold wfFS; decide) rfl (fun _ => rfl) rfl
    (by decide) (by decide) (by decide) (by decide)
  exact ⟨⟨h.1, h.2.1, h.2.2.1⟩, h.2.2.2 ["t", "a", "c"]⟩

end SLW
